import Mathlib

/-!
A verification development for the distributed property-graph ingestion
pipeline of `modules/graph/loader/arrow_fragment_loader.h` (vineyard).

The pure parts of the loader are embedded directly from the source:
`FindMostCommonSchema`, the reconciliation branch of `SyncSchema`, the
label re-indexing step of `shuffleAndBuild`, the group-descriptor loop of
`constructFragmentGroup`, and `swapColumn`.  Collaborators that are not
part of this translation unit (the hash partitioner, the shuffle engine,
table promotion, the fragment-group builder) are modelled from the
specification; each such definition carries a doc comment saying so.
-/

namespace Vineyard

/-- Error kinds of the loader (`graph/utils/error.h` error codes used in
`arrow_fragment_loader.h`). -/
inductive LoadError where
  | kIOError : LoadError
  | kInvalidSchema : LoadError
  | kInvalidArgument : LoadError
deriving DecidableEq, Repr

/-- An Arrow field: a column name together with its type, the type being
represented by its canonical string (`type()->ToString()` in the source,
which is what `FindMostCommonSchema` sorts and compares by). -/
structure Field where
  name : String
  type : String
deriving DecidableEq, Repr

instance : Inhabited Field := ⟨⟨"", ""⟩⟩

/-- A schema is the ordered list of its fields. -/
abbrev Schema := List Field

/-- A materialized column: its field plus its cell data simplified to
nullable scalars. -/
structure Column where
  name : String
  type : String
  data : List (Option Nat)
deriving DecidableEq, Repr

instance : Inhabited Column := ⟨⟨"", "", []⟩⟩

/-- An Arrow table: a row count and its columns. -/
structure Table where
  numRows : Nat
  columns : List Column
deriving DecidableEq, Repr

/-- The schema of a table, read off its columns. -/
def Table.schema (t : Table) : Schema :=
  t.columns.map (fun c => ⟨c.name, c.type⟩)

/-- Modelled from the spec: `stable_hash` of the hash partitioner
(`graph/utils/partitioner.h` is not part of this translation unit).  Any
fixed pure function of the oid works for the development; the identity is
used.  OIDs are modelled as naturals. -/
def stableHash (oid : Nat) : Nat := oid

/-- Modelled from the spec: `HashPartitioner` state — `Init(fragment_count)`
stores only the fragment count. -/
structure HashPartitioner where
  fnum : Nat
deriving DecidableEq, Repr

/-- Modelled from the spec: `Init(fragment_count)` of the hash partitioner. -/
def HashPartitioner.init (fnum : Nat) : HashPartitioner := ⟨fnum⟩

/-- Modelled from the spec: `GetPartitionId(oid) = stable_hash(oid) mod
fragment_count`. -/
def HashPartitioner.getPartitionId (p : HashPartitioner) (oid : Nat) : Nat :=
  stableHash oid % p.fnum

/-- `GetPartitionId` with the partitioner state threaded explicitly, to
express side-effect freedom: the call returns a value and the (unchanged)
partitioner. -/
def HashPartitioner.getPartitionIdRun (p : HashPartitioner) (oid : Nat) :
    Nat × HashPartitioner :=
  (p.getPartitionId oid, p)

/-- A vertex row: its external id (oid) plus property values. -/
structure VertexRow where
  oid : Nat
  props : List Nat
deriving DecidableEq, Repr

/-- An edge row: source and destination oids plus property values. -/
structure EdgeRow where
  src : Nat
  dst : Nat
  props : List Nat
deriving DecidableEq, Repr

/-- Modelled from the spec: the all-to-all shuffle of
`BasicArrowFragmentLoader::ShuffleVertexTables` / `ShuffleEdgeTables`
(`basic_arrow_fragment_loader.h` is not part of this translation unit).
`inputs` is the per-worker list of locally-read rows of one label; worker
`w` receives, from every worker in rank order, exactly the rows whose
owner is `w`. -/
def shuffleRecv {ρ : Type} (owner : ρ → Nat) (inputs : List (List ρ))
    (w : Nat) : List ρ :=
  (inputs.map (fun rows => rows.filter (fun r => owner r = w))).flatten

/-- The owner of a vertex row: `GetPartitionId` of its oid. -/
def vertexOwner (fnum : Nat) (r : VertexRow) : Nat :=
  (HashPartitioner.init fnum).getPartitionId r.oid

/-- The owner of an edge row: the owner of its designated source endpoint. -/
def edgeOwner (fnum : Nat) (e : EdgeRow) : Nat :=
  (HashPartitioner.init fnum).getPartitionId e.src

/-- Worker `w`'s received vertex rows after the vertex shuffle. -/
def shuffleVertexTables (fnum : Nat) (inputs : List (List VertexRow))
    (w : Nat) : List VertexRow :=
  shuffleRecv (vertexOwner fnum) inputs w

/-- Worker `w`'s received edge rows after the edge shuffle. -/
def shuffleEdgeTables (fnum : Nat) (inputs : List (List EdgeRow))
    (w : Nat) : List EdgeRow :=
  shuffleRecv (edgeOwner fnum) inputs w

/-- The oid column of a list of vertex rows. -/
def vertexOids (rows : List VertexRow) : List Nat :=
  rows.map VertexRow.oid

/-- The comparator of `FindMostCommonSchema`'s sort:
`lhs->type()->ToString() < rhs->type()->ToString()`, taken here as the
reflexive closure that the sort realizes. -/
def fieldLe (f g : Field) : Prop := f.type ≤ g.type

instance : DecidableRel fieldLe :=
  fun f g => (inferInstance : Decidable (f.type ≤ g.type))

instance : IsTotal Field fieldLe := ⟨fun f g => le_total f.type g.type⟩

instance : IsTrans Field fieldLe := ⟨fun _ _ _ h1 h2 => le_trans h1 h2⟩

/-- The linear run-counting scan of `FindMostCommonSchema` (source lines
166–184): state is the previous element `prev`, the best run length
`maxC`, the current run length `currC`, and the best run's field `res`;
on a type change a strictly longer current run replaces the best; at the
end the last run wins only if strictly longer. -/
def scanRuns (prev : Field) (maxC currC : Nat) (res : Field) :
    List Field → Field
  | [] => if maxC < currC then prev else res
  | f :: rest =>
    if f.type = prev.type then scanRuns f maxC (currC + 1) res rest
    else if maxC < currC then scanRuns f currC 1 prev rest
    else scanRuns f maxC 1 res rest

/-- The same scan projected onto type keys only. -/
def tscan {α : Type} [LinearOrder α] (prev : α) (maxC currC : Nat)
    (res : α) : List α → α
  | [] => if maxC < currC then prev else res
  | t :: rest =>
    if t = prev then tscan prev maxC (currC + 1) res rest
    else if maxC < currC then tscan t currC 1 prev rest
    else tscan t maxC 1 res rest

/-- `field_num` of `FindMostCommonSchema`: the field count of the first
non-null schema (source lines 140–146), zero when all are null. -/
def firstFieldNum : List (Option Schema) → Nat
  | [] => 0
  | none :: rest => firstFieldNum rest
  | some s :: _ => s.length

/-- The fields contributed at position `i`: `schemas[j]->field(i)` for
every non-null schema, in worker order (source lines 148–156). -/
def contributedAt (schemas : List (Option Schema)) (i : Nat) : List Field :=
  schemas.filterMap (fun o => o.bind (fun s => s[i]?))

/-- The modal field at one position: sort the contributed fields by the
canonical type string, then run the linear scan (source lines 157–186).
`none` only when no schema contributes at this position (in which case the
source would perform an out-of-bounds access). -/
def mostCommonFieldAt (schemas : List (Option Schema)) (i : Nat) :
    Option Field :=
  match List.insertionSort fieldLe (contributedAt schemas i) with
  | [] => none
  | x :: rest => some (scanRuns x 1 1 x rest)

/-- `FindMostCommonSchema` (source lines 138–189): the per-position modal
fields of the non-null input schemas. -/
def findMostCommonSchema (schemas : List (Option Schema)) : Schema :=
  (List.range (firstFieldNum schemas)).filterMap
    (fun i => mostCommonFieldAt schemas i)

/-- Modelled from the spec: the byte size of an Arrow-IPC-serialized
schema (`arrow::ipc::SerializeSchema` is an external collaborator); the
only fact used is that a serialized schema is a non-empty buffer. -/
def schemaByteSize (s : Schema) : Nat := 1 + s.length

/-- The per-worker payload size of `SyncSchema`'s length gather: `0` for a
null table, the serialized schema size otherwise (source lines 199–203). -/
def serializedSize (t : Option Table) : Nat :=
  match t with
  | none => 0
  | some t => schemaByteSize t.schema

/-- Modelled from the spec: `vineyard::EmptyTableBuilder::Build` — an
empty (0-row) table whose schema is exactly the given one. -/
def emptyTableBuild (s : Schema) : Table :=
  { numRows := 0, columns := s.map (fun f => ⟨f.name, f.type, []⟩) }

/-- Modelled from the spec: the per-field loop of `PromoteTableToSchema` —
for each field of the final schema, keep the table's column of that name
when its type matches, add an all-null column when the table has none, and
fail on an irreconcilable type. -/
def promoteColumns (t : Table) : Schema → Except LoadError (List Column)
  | [] => .ok []
  | f :: rest =>
    match t.columns.find? (fun c => c.name = f.name) with
    | none =>
      (promoteColumns t rest).map
        (fun cs => ⟨f.name, f.type, List.replicate t.numRows none⟩ :: cs)
    | some c =>
      if c.type = f.type then (promoteColumns t rest).map (fun cs => c :: cs)
      else .error .kInvalidSchema

/-- Modelled from the spec: `PromoteTableToSchema` — promote a table to
the final schema by the per-field loop, failing (never silently dropping)
when the table holds a column whose name is absent from the final
schema. -/
def promoteTableToSchema (t : Table) (final : Schema) :
    Except LoadError Table :=
  if t.columns.any (fun c => final.all (fun f => f.name ≠ c.name)) then
    .error .kInvalidSchema
  else
    (promoteColumns t final).map
      (fun cols => { numRows := t.numRows, columns := cols })

/-- The reconciliation tail of `SyncSchema` (source lines 281–287): a null
table becomes an empty table with the final schema; a non-null table is
promoted to it. -/
def reconcileTable (final : Schema) (t : Option Table) :
    Except LoadError Table :=
  match t with
  | none => .ok (emptyTableBuild final)
  | some t => promoteTableToSchema t final

/-- `SyncSchema` (source lines 191–288) seen as one global function of the
collective: `tables` holds every worker's local table (null allowed).  A
single-worker run returns immediately; otherwise the gathered sizes are
summed, an all-zero gather is a fatal `kIOError`, the non-null schemas are
reconciled to the most common one, and every worker's table is rebuilt or
promoted against it. -/
def syncSchemaAll (tables : List (Option Table)) :
    Except LoadError (List (Option Table)) :=
  if tables.length = 1 then .ok tables
  else if (tables.map serializedSize).sum = 0 then .error .kIOError
  else
    let final := findMostCommonSchema (tables.map (fun o => o.map Table.schema))
    tables.mapM (fun t => (reconcileTable final t).map some)

/-- A shuffled table together with its schema metadata key-value pairs
(the `label_index` field stamped by the table loader). -/
structure MetaTable where
  table : Table
  meta : List (String × String)
deriving DecidableEq, Repr

/-- `meta->FindKey(k)` followed by reading the value: the first metadata
entry with the given key. -/
def findMetaKey (meta : List (String × String)) (k : String) : Option String :=
  (meta.find? (fun kv => kv.1 = k)).map (fun kv => kv.2)

/-- The digit-accumulating loop of `std::stoi`: consume leading decimal
digits, stopping at the first non-digit. -/
def parseDigits : List Char → Nat → Nat
  | [], acc => acc
  | c :: rest, acc =>
    if c.isDigit then parseDigits rest (acc * 10 + (c.toNat - 48)) else acc

/-- `std::stoi` restricted to non-negative results: the leading decimal
number of the string, `none` when the string starts with no digit. -/
def stoiNat (s : String) : Option Nat :=
  match s.data with
  | [] => none
  | c :: _ => if c.isDigit then some (parseDigits s.data 0) else none

/-- The declared label index of a shuffled table: `std::stoi` of its
`label_index` metadata value (source lines 367–370). -/
def labelIndexOf (t : MetaTable) : Option Nat :=
  (findMetaKey t.meta "label_index").bind stoiNat

/-- The label re-indexing step of `shuffleAndBuild` (source lines
361–387): a null-initialized vector of the same length is filled by
placing every received table into its declared `label_index` slot.  A
missing key or out-of-range index trips a CHECK in the source; here the
table is skipped (respectively the write is a no-op), which the theorems
exclude by hypothesis. -/
def rearrangeStep (acc : List (Option MetaTable)) (t : MetaTable) :
    List (Option MetaTable) :=
  match labelIndexOf t with
  | some i => acc.set i (some t)
  | none => acc

def rearrangeByLabel (tables : List MetaTable) : List (Option MetaTable) :=
  tables.foldl rearrangeStep (List.replicate tables.length none)

/-- Modelled from the spec: the fragment-group descriptor built by
`ArrowFragmentGroupBuilder` (`arrow_fragment_group.h` is not part of this
translation unit): total fragment count, label counts, and the
`fragment_id -> (object_id, instance_id)` entries. -/
structure FragmentGroup where
  totalFragNum : Nat
  vertexLabelNum : Nat
  edgeLabelNum : Nat
  fragments : List (Nat × Nat × Nat)
deriving DecidableEq, Repr

/-- `constructFragmentGroup` (source lines 445–493) seen as one global
function of the collective: the coordinator gathers every worker's
fragment object id and instance id into rank-indexed vectors, builds one
entry per fragment id `0..fnum-1` reading both vectors at
`FragToWorker(i)` (the fragment-to-worker-rank translation of the comm
spec, passed here as `fragToWorker`), and broadcasts the persisted group's
object id (`newId` models the object store's id assignment) to every
worker. -/
def constructFragmentGroupAll (newId : FragmentGroup → Nat)
    (workerNum fnum vLabelNum eLabelNum : Nat) (fragToWorker : Nat → Nat)
    (fragIds instIds : List Nat) : FragmentGroup × List Nat :=
  let g : FragmentGroup :=
    { totalFragNum := fnum
      vertexLabelNum := vLabelNum
      edgeLabelNum := eLabelNum
      fragments := (List.range fnum).map
        (fun i => (i, fragIds.getD (fragToWorker i) 0,
                   instIds.getD (fragToWorker i) 0)) }
  (g, List.replicate workerNum (newId g))

/-- `arrow::Status` as used by `swapColumn`. -/
inductive ArrowStatus where
  | ok : ArrowStatus
  | invalid : String → ArrowStatus
deriving DecidableEq, Repr

/-- `swapColumn` (source lines 579–598), with the caller's output slot
threaded explicitly: the result pairs the returned status with the value
the caller's `*out` holds after the call.  In the `lhs_index == rhs_index`
branch the source executes `out = &in`, which rebinds the local pointer
parameter and never writes through the caller's slot, so that slot keeps
its previous value. -/
def swapColumn (t : Table) (lhsIndex rhsIndex : Nat)
    (callerOut : Option Table) : ArrowStatus × Option Table :=
  if lhsIndex = rhsIndex then
    (.ok, callerOut)
  else if rhsIndex < lhsIndex then
    (.invalid "lhs index must smaller than rhs index.", callerOut)
  else
    let c := t.columns.getD rhsIndex default
    let removed := t.columns.eraseIdx rhsIndex
    (.ok, some { numRows := t.numRows, columns := removed.insertIdx lhsIndex c })

/-- The run-scan invariant: entering the scan with closed (already
counted) elements `C`, current-run element `prev`, best field `res` and
best count `maxC`, either nothing is closed yet and `res` still names the
current run, or `res` attains the maximal count among closed elements and
is the least such key. -/
def scanInv {α : Type} [LinearOrder α] (C : List α) (prev res : α)
    (maxC : Nat) : Prop :=
  (C = [] ∧ maxC = 1 ∧ res = prev) ∨
  (res ∈ C ∧ C.count res = maxC ∧ (∀ t ∈ C, C.count t ≤ maxC) ∧
   (∀ t ∈ C, C.count t = maxC → res ≤ t))

/-- `r` is a modal key of `l`, and the least key among the equally
frequent ones — the "first encountered in sorted order" tie-break. -/
def firstModalKey {α : Type} [LinearOrder α] (l : List α) (r : α) : Prop :=
  r ∈ l ∧ (∀ t ∈ l, l.count t ≤ l.count r) ∧
  (∀ t ∈ l, l.count t = l.count r → r ≤ t)

/-- `r`'s type is a modal type of the field list `l`, first in sorted
order among equal-frequency ties. -/
def typeFirstModal (l : List Field) (r : Field) : Prop :=
  firstModalKey (l.map Field.type) r.type

/-- An `Except.map` yields `ok` exactly when the mapped computation did. -/
theorem except_map_ok {ε α β : Type} (g : α → β) (x : Except ε α) (y : β) :
    x.map g = Except.ok y ↔ ∃ z, x = Except.ok z ∧ y = g z := by
  cases x <;> simp [Except.map, eq_comm]

/-- Claim C10: with `lhs_index == rhs_index` the source's `swapColumn`
returns an OK status but rebinds only its local pointer (`out = &in`), so
the caller's output slot keeps whatever value it held before the call. -/
theorem swapColumn_equal_indices_never_writes (t : Table) (i : Nat)
    (prevOut : Option Table) :
    swapColumn t i i prevOut = (ArrowStatus.ok, prevOut) := by
  simp [swapColumn]

/-- Claim C9: a single-worker `SyncSchema` run skips the reconciliation
protocol, succeeds immediately and leaves the worker's table exactly as it
was. -/
theorem syncSchema_single_worker (tables : List (Option Table))
    (h : tables.length = 1) :
    syncSchemaAll tables = Except.ok tables := by
  simp [syncSchemaAll, h]

/-- Witness for `syncSchema_single_worker` at the one-worker input
`[none]`. -/
theorem syncSchema_single_worker_witness :
    ([(none : Option Table)].length = 1) ∧
      syncSchemaAll [none] = Except.ok [none] :=
  ⟨rfl, syncSchema_single_worker [none] rfl⟩

/-- Claim C5: with more than one worker and every worker contributing a
zero-length serialized schema (a null table), `SyncSchema` fails with a
`kIOError` instead of producing a final schema. -/
theorem syncSchema_all_empty_is_ioerror (tables : List (Option Table))
    (hmulti : 1 < tables.length) (hempty : ∀ t ∈ tables, t = none) :
    syncSchemaAll tables = Except.error LoadError.kIOError := by
  have hne : ¬ tables.length = 1 := by omega
  have hsum : (tables.map serializedSize).sum = 0 := by
    apply List.sum_eq_zero
    intro x hx
    rcases List.mem_map.mp hx with ⟨t, ht, rfl⟩
    rw [hempty t ht]
    rfl
  simp [syncSchemaAll, hne, hsum]

/-- Witness for `syncSchema_all_empty_is_ioerror` at two null tables. -/
theorem syncSchema_all_empty_is_ioerror_witness :
    (1 < ([none, none] : List (Option Table)).length) ∧
      syncSchemaAll [none, none] = Except.error LoadError.kIOError :=
  ⟨by decide, syncSchema_all_empty_is_ioerror [none, none] (by decide)
    (by decide)⟩

/-- Claim C2: `GetPartitionId` is pure, side-effect-free and total: any
two partitioner instances holding the same fragment count (two workers
after `Init(fnum)`) return the same fragment id for the same oid, the
partitioner state is left unchanged, and with a positive fragment count
the returned fragment id is always in range. -/
theorem getPartitionId_pure_deterministic (p q : HashPartitioner)
    (oid : Nat) (h : p.fnum = q.fnum) :
    (p.getPartitionIdRun oid).1 = (q.getPartitionIdRun oid).1 ∧
    (p.getPartitionIdRun oid).2 = p ∧
    (0 < p.fnum → (p.getPartitionIdRun oid).1 < p.fnum) := by
  refine ⟨?_, rfl, ?_⟩
  · simp [HashPartitioner.getPartitionIdRun, HashPartitioner.getPartitionId, h]
  · intro hf
    exact Nat.mod_lt _ hf

/-- Witness for `getPartitionId_pure_deterministic`: two workers, both
after `Init(4)`, at oid `7`. -/
theorem getPartitionId_pure_deterministic_witness :
    ((HashPartitioner.init 4).fnum = (HashPartitioner.init 4).fnum) ∧
    (((HashPartitioner.init 4).getPartitionIdRun 7).1 =
      ((HashPartitioner.init 4).getPartitionIdRun 7).1 ∧
     ((HashPartitioner.init 4).getPartitionIdRun 7).2 =
      HashPartitioner.init 4 ∧
     (0 < (HashPartitioner.init 4).fnum →
      ((HashPartitioner.init 4).getPartitionIdRun 7).1 <
        (HashPartitioner.init 4).fnum)) :=
  ⟨rfl, getPartitionId_pure_deterministic (HashPartitioner.init 4)
    (HashPartitioner.init 4) 7 rfl⟩

/-- Claim C7: the published group descriptor has exactly `fnum` entries,
entry `i` pairs fragment id `i` with the object id and instance id
gathered from worker `FragToWorker(i)` (not from worker rank `i`), and
every worker's call returns the same broadcast group object id. -/
theorem constructFragmentGroup_entries (newId : FragmentGroup → Nat)
    (workerNum fnum vLabelNum eLabelNum : Nat) (fragToWorker : Nat → Nat)
    (fragIds instIds : List Nat) (hwpos : 0 < workerNum) :
    (constructFragmentGroupAll newId workerNum fnum vLabelNum eLabelNum
        fragToWorker fragIds instIds).1.fragments.length = fnum ∧
    (∀ i, i < fnum →
      (constructFragmentGroupAll newId workerNum fnum vLabelNum eLabelNum
          fragToWorker fragIds instIds).1.fragments[i]? =
        some (i, fragIds.getD (fragToWorker i) 0,
              instIds.getD (fragToWorker i) 0)) ∧
    (∀ w, w < workerNum →
      (constructFragmentGroupAll newId workerNum fnum vLabelNum eLabelNum
          fragToWorker fragIds instIds).2[w]? =
        some (newId (constructFragmentGroupAll newId workerNum fnum
          vLabelNum eLabelNum fragToWorker fragIds instIds).1)) := by
  clear hwpos
  refine ⟨?_, ?_, ?_⟩
  · simp [constructFragmentGroupAll]
  · intro i hi
    simp [constructFragmentGroupAll, List.getElem?_map,
      List.getElem?_range hi]
  · intro w hw'
    simp [constructFragmentGroupAll, List.getElem?_replicate, hw']

/-- Witness for `constructFragmentGroup_entries`: two workers, two
fragments, with the fragment-to-worker translation swapping the ranks. -/
theorem constructFragmentGroup_entries_witness :
    (0 < 2) ∧
    ((constructFragmentGroupAll (fun _ => 42) 2 2 1 1 (fun i => 1 - i)
        [10, 11] [100, 101]).1.fragments.length = 2 ∧
    (∀ i, i < 2 →
      (constructFragmentGroupAll (fun _ => 42) 2 2 1 1 (fun i => 1 - i)
          [10, 11] [100, 101]).1.fragments[i]? =
        some (i, [10, 11].getD (1 - i) 0, [100, 101].getD (1 - i) 0)) ∧
    (∀ w, w < 2 →
      (constructFragmentGroupAll (fun _ => 42) 2 2 1 1 (fun i => 1 - i)
          [10, 11] [100, 101]).2[w]? =
        some (42))) :=
  ⟨by decide, constructFragmentGroup_entries (fun _ => 42) 2 2 1 1
    (fun i => 1 - i) [10, 11] [100, 101] (by decide)⟩

/-- A successful promotion produces exactly the final schema's fields. -/
theorem promoteColumns_ok_schema (t : Table) :
    ∀ (final : Schema) (cols : List Column),
      promoteColumns t final = Except.ok cols →
      cols.map (fun c => (⟨c.name, c.type⟩ : Field)) = final := by
  intro final
  induction final with
  | nil =>
    intro cols h
    simp [promoteColumns] at h
    simp [← h]
  | cons f rest ih =>
    intro cols h
    rw [promoteColumns] at h
    split at h
    · rcases (except_map_ok _ _ _).mp h with ⟨cs, hok, rfl⟩
      simp [ih cs hok]
    · rename_i c hfind
      split at h
      · rename_i htype
        rcases (except_map_ok _ _ _).mp h with ⟨cs, hok, rfl⟩
        have hname : c.name = f.name := by
          have := List.find?_some hfind
          simpa using this
        simp [ih cs hok, hname, htype]
      · exact absurd h (by simp)

/-- A successfully promoted schema keeps every column the per-field loop
found by name. -/
theorem promoteColumns_keeps_found (t : Table) :
    ∀ (final : Schema) (cols : List Column),
      promoteColumns t final = Except.ok cols →
      ∀ f ∈ final, ∀ c, t.columns.find? (fun c' => c'.name = f.name) = some c →
        c ∈ cols := by
  intro final
  induction final with
  | nil =>
    intro cols _ f hf
    exact absurd hf (List.not_mem_nil f)
  | cons f₀ rest ih =>
    intro cols h f hf c hfind
    rw [promoteColumns] at h
    split at h
    · rename_i hf0
      rcases (except_map_ok _ _ _).mp h with ⟨cs, hok, rfl⟩
      rcases List.mem_cons.mp hf with rfl | hfr
      · rw [hf0] at hfind
        exact absurd hfind (by simp)
      · exact List.mem_cons_of_mem _ (ih cs hok f hfr c hfind)
    · rename_i c₀ hf0
      split at h
      · rename_i htype
        rcases (except_map_ok _ _ _).mp h with ⟨cs, hok, rfl⟩
        rcases List.mem_cons.mp hf with rfl | hfr
        · rw [hf0] at hfind
          have : c₀ = c := by injection hfind
          subst this
          exact List.mem_cons_self _ _
        · exact List.mem_cons_of_mem _ (ih cs hok f hfr c hfind)
      · exact absurd h (by simp)

/-- With pairwise-distinct column names, `find?` by a member's name
returns that member. -/
theorem find?_name_self (cols : List Column) (c : Column)
    (hnodup : (cols.map Column.name).Nodup) (hc : c ∈ cols) :
    cols.find? (fun c' => c'.name = c.name) = some c := by
  have hsome : (cols.find? (fun c' => c'.name = c.name)).isSome := by
    rw [List.find?_isSome]
    exact ⟨c, hc, by simp⟩
  rcases Option.isSome_iff_exists.mp hsome with ⟨c₁, hc₁⟩
  have hmem : c₁ ∈ cols := List.mem_of_find?_eq_some hc₁
  have hname : c₁.name = c.name := by
    have := List.find?_some hc₁
    simpa using this
  have : c₁ = c := List.inj_on_of_nodup_map hnodup hmem hc hname
  rw [hc₁, this]

/-- Claim C4: after schema synchronisation, a worker with a null table
gets an empty (0-row) table whose schema is exactly the final schema; a
worker with a table has it promoted — columns kept (never silently
dropped), missing columns added all-null, row count preserved — and a
column that cannot be promoted (absent from the final schema) is a fatal
`kInvalidSchema` error. -/
theorem syncSchema_reconciles_tables (final : Schema) :
    (reconcileTable final none = Except.ok (emptyTableBuild final) ∧
     (emptyTableBuild final).schema = final ∧
     (emptyTableBuild final).numRows = 0) ∧
    (∀ t : Table, reconcileTable final (some t) = promoteTableToSchema t final) ∧
    (∀ t t' : Table, (t.columns.map Column.name).Nodup →
      promoteTableToSchema t final = Except.ok t' →
      t'.schema = final ∧ t'.numRows = t.numRows ∧
      ∀ c ∈ t.columns, c ∈ t'.columns) ∧
    (∀ t : Table, ∀ c ∈ t.columns, (∀ f ∈ final, f.name ≠ c.name) →
      promoteTableToSchema t final = Except.error LoadError.kInvalidSchema) := by
  refine ⟨⟨rfl, ?_, rfl⟩, fun t => rfl, ?_, ?_⟩
  · show (final.map (fun f => (⟨f.name, f.type, []⟩ : Column))).map
      (fun c => (⟨c.name, c.type⟩ : Field)) = final
    rw [List.map_map]
    exact List.map_id final
  · intro t t' hnodup hok
    rw [promoteTableToSchema] at hok
    by_cases hany : t.columns.any (fun c => final.all (fun f => f.name ≠ c.name))
    · rw [if_pos hany] at hok
      exact absurd hok (by simp)
    · rw [if_neg hany] at hok
      rcases (except_map_ok _ _ _).mp hok with ⟨cols, hcols, rfl⟩
      refine ⟨promoteColumns_ok_schema t final cols hcols, rfl, ?_⟩
      intro c hc
      have hmatch : ∃ f ∈ final, f.name = c.name := by
        by_contra hnone
        push_neg at hnone
        apply hany
        rw [List.any_eq_true]
        refine ⟨c, hc, ?_⟩
        rw [List.all_eq_true]
        intro f hf
        simpa using hnone f hf
      rcases hmatch with ⟨f, hf, hfname⟩
      have hfind : t.columns.find? (fun c' => c'.name = f.name) = some c := by
        rw [hfname]
        exact find?_name_self t.columns c hnodup hc
      exact promoteColumns_keeps_found t final cols hcols f hf c hfind
  · intro t c hc hnoname
    rw [promoteTableToSchema, if_pos]
    rw [List.any_eq_true]
    refine ⟨c, hc, ?_⟩
    rw [List.all_eq_true]
    intro f hf
    simpa using hnoname f hf

/-- Witness for `syncSchema_reconciles_tables` at a concrete two-field
final schema, checking the null-table branch and one concrete
promotion. -/
theorem syncSchema_reconciles_tables_witness :
    (reconcileTable [⟨"a", "int64"⟩, ⟨"b", "utf8"⟩] none =
      Except.ok (emptyTableBuild [⟨"a", "int64"⟩, ⟨"b", "utf8"⟩]) ∧
     (emptyTableBuild [⟨"a", "int64"⟩, ⟨"b", "utf8"⟩]).schema =
      [⟨"a", "int64"⟩, ⟨"b", "utf8"⟩] ∧
     (emptyTableBuild [⟨"a", "int64"⟩, ⟨"b", "utf8"⟩]).numRows = 0) ∧
    (promoteTableToSchema ⟨2, [⟨"a", "int64", [some 1, some 2]⟩]⟩
        [⟨"a", "int64"⟩, ⟨"b", "utf8"⟩] =
      Except.ok ⟨2, [⟨"a", "int64", [some 1, some 2]⟩,
                     ⟨"b", "utf8", [none, none]⟩]⟩) := by
  refine ⟨(syncSchema_reconciles_tables [⟨"a", "int64"⟩, ⟨"b", "utf8"⟩]).1, ?_⟩
  rfl

/-- The re-indexing fold preserves the slot vector's length. -/
theorem rearrangeFold_length :
    ∀ (ts : List MetaTable) (acc : List (Option MetaTable)),
      (ts.foldl rearrangeStep acc).length = acc.length := by
  intro ts
  induction ts with
  | nil => intro acc; rfl
  | cons t rest ih =>
    intro acc
    rw [List.foldl_cons, ih]
    unfold rearrangeStep
    cases labelIndexOf t <;> simp

/-- A slot no remaining table declares is left untouched by the fold. -/
theorem rearrangeFold_get_skip :
    ∀ (ts : List MetaTable) (acc : List (Option MetaTable)) (i : Nat),
      (∀ t ∈ ts, labelIndexOf t ≠ some i) →
      (ts.foldl rearrangeStep acc)[i]? = acc[i]? := by
  intro ts
  induction ts with
  | nil => intro acc i _; rfl
  | cons t rest ih =>
    intro acc i hskip
    rw [List.foldl_cons, ih _ _ (fun u hu => hskip u (List.mem_cons_of_mem _ hu))]
    unfold rearrangeStep
    rcases hl : labelIndexOf t with _ | j
    · rfl
    · have : j ≠ i := fun hji => hskip t (List.mem_cons_self _ _) (by rw [hl, hji])
      exact List.getElem?_set_ne this

/-- Every table ends up in its declared slot, provided all declared slots
are in range and pairwise distinct. -/
theorem rearrangeFold_get_mem :
    ∀ (ts : List MetaTable) (acc : List (Option MetaTable)),
      (∀ t ∈ ts, ∃ j, labelIndexOf t = some j ∧ j < acc.length) →
      (ts.filterMap labelIndexOf).Nodup →
      ∀ t ∈ ts, ∀ i, labelIndexOf t = some i →
        (ts.foldl rearrangeStep acc)[i]? = some (some t) := by
  intro ts
  induction ts with
  | nil =>
    intro acc _ _ t ht
    exact absurd ht (List.not_mem_nil t)
  | cons t₀ rest ih =>
    intro acc hall hnodup t ht i hlabel
    rcases hall t₀ (List.mem_cons_self _ _) with ⟨j₀, hj₀, hj₀lt⟩
    have hfm : (t₀ :: rest).filterMap labelIndexOf =
        j₀ :: rest.filterMap labelIndexOf := by
      rw [List.filterMap_cons, hj₀]
    rw [hfm] at hnodup
    have hj₀notin : j₀ ∉ rest.filterMap labelIndexOf :=
      (List.nodup_cons.mp hnodup).1
    have hrestnodup : (rest.filterMap labelIndexOf).Nodup :=
      (List.nodup_cons.mp hnodup).2
    have hacc' : (rearrangeStep acc t₀).length = acc.length := by
      unfold rearrangeStep
      cases labelIndexOf t₀ <;> simp
    rcases List.mem_cons.mp ht with rfl | htr
    · have hij : i = j₀ := by
        rw [hlabel] at hj₀
        injection hj₀
      subst hij
      rw [List.foldl_cons]
      have hskip : ∀ u ∈ rest, labelIndexOf u ≠ some i := by
        intro u hu hui
        exact hj₀notin (List.mem_filterMap.mpr ⟨u, hu, hui⟩)
      rw [rearrangeFold_get_skip rest _ i hskip]
      unfold rearrangeStep
      rw [hlabel]
      exact List.getElem?_set_self hj₀lt
    · rw [List.foldl_cons]
      refine ih (rearrangeStep acc t₀) ?_ hrestnodup t htr i hlabel
      intro u hu
      rcases hall u (List.mem_cons_of_mem _ hu) with ⟨j, hj, hjlt⟩
      exact ⟨j, hj, by rw [hacc']; exact hjlt⟩

/-- A `filterMap` by an everywhere-defined function keeps the length. -/
theorem length_filterMap_of_isSome {α β : Type} (f : α → Option β) :
    ∀ (l : List α), (∀ a ∈ l, (f a).isSome) → (l.filterMap f).length = l.length := by
  intro l
  induction l with
  | nil => intro _; rfl
  | cons a rest ih =>
    intro h
    rcases Option.isSome_iff_exists.mp (h a (List.mem_cons_self _ _)) with ⟨b, hb⟩
    rw [List.filterMap_cons, hb]
    simp only [List.length_cons]
    rw [ih (fun x hx => h x (List.mem_cons_of_mem _ hx))]

/-- Pigeonhole: `n` pairwise-distinct naturals below `n` hit every value
below `n`. -/
theorem mem_of_nodup_lt_length {l : List Nat} {n : Nat} (hnd : l.Nodup)
    (hlt : ∀ x ∈ l, x < n) (hlen : l.length = n) : ∀ i, i < n → i ∈ l := by
  have hsub : l.toFinset ⊆ Finset.range n := fun x hx =>
    Finset.mem_range.mpr (hlt x (List.mem_toFinset.mp hx))
  have hcard : (Finset.range n).card ≤ l.toFinset.card := by
    rw [List.toFinset_card_of_nodup hnd, Finset.card_range, hlen]
  have heq := Finset.eq_of_subset_of_card_le hsub hcard
  intro i hi
  have : i ∈ l.toFinset := by
    rw [heq]
    exact Finset.mem_range.mpr hi
  exact List.mem_toFinset.mp this

/-- The length of the re-indexed slot vector. -/
theorem rearrangeByLabel_length (tables : List MetaTable) :
    (rearrangeByLabel tables).length = tables.length := by
  rw [rearrangeByLabel, rearrangeFold_length, List.length_replicate]

/-- Claim C6: after the shuffles, the received tables are re-indexed by
their `label_index` schema metadata: every table lands in its declared
slot, every slot `i` holds the received table declaring label index `i`,
and the result is independent of the physical arrival order. -/
theorem rearrange_by_label_correct (tables : List MetaTable)
    (hall : ∀ t ∈ tables, ∃ j, labelIndexOf t = some j ∧ j < tables.length)
    (hnodup : (tables.filterMap labelIndexOf).Nodup) :
    (∀ t ∈ tables, ∀ i, labelIndexOf t = some i →
      (rearrangeByLabel tables)[i]? = some (some t)) ∧
    (∀ i, i < tables.length → ∃ t ∈ tables, labelIndexOf t = some i ∧
      (rearrangeByLabel tables)[i]? = some (some t)) ∧
    (∀ tables' : List MetaTable, tables'.Perm tables →
      rearrangeByLabel tables' = rearrangeByLabel tables) := by
  have hall' : ∀ t ∈ tables, ∃ j, labelIndexOf t = some j ∧
      j < (List.replicate tables.length (none : Option MetaTable)).length := by
    simpa using hall
  have conj1 : ∀ t ∈ tables, ∀ i, labelIndexOf t = some i →
      (rearrangeByLabel tables)[i]? = some (some t) :=
    fun t ht i hi => rearrangeFold_get_mem tables _ hall' hnodup t ht i hi
  have hlen : (tables.filterMap labelIndexOf).length = tables.length := by
    apply length_filterMap_of_isSome
    intro t ht
    rcases hall t ht with ⟨j, hj, _⟩
    rw [hj]
    rfl
  have hbound : ∀ x ∈ tables.filterMap labelIndexOf, x < tables.length := by
    intro x hx
    rcases List.mem_filterMap.mp hx with ⟨t, ht, hlt⟩
    rcases hall t ht with ⟨j, hj, hjlt⟩
    rw [hj] at hlt
    injection hlt with hjx
    rw [← hjx]
    exact hjlt
  have conj2 : ∀ i, i < tables.length → ∃ t ∈ tables,
      labelIndexOf t = some i ∧ (rearrangeByLabel tables)[i]? = some (some t) := by
    intro i hi
    have hmem := mem_of_nodup_lt_length hnodup hbound hlen i hi
    rcases List.mem_filterMap.mp hmem with ⟨t, ht, hti⟩
    exact ⟨t, ht, hti, conj1 t ht i hti⟩
  refine ⟨conj1, conj2, ?_⟩
  intro tables' hperm
  have hlen' : tables'.length = tables.length := hperm.length_eq
  have hall'2 : ∀ t ∈ tables', ∃ j, labelIndexOf t = some j ∧
      j < tables'.length := by
    intro t ht
    rcases hall t (hperm.mem_iff.mp ht) with ⟨j, hj, hjlt⟩
    exact ⟨j, hj, by rw [hlen']; exact hjlt⟩
  have hnodup' : (tables'.filterMap labelIndexOf).Nodup :=
    ((List.Perm.filterMap labelIndexOf hperm).nodup_iff).mpr hnodup
  have conj1' : ∀ t ∈ tables', ∀ i, labelIndexOf t = some i →
      (rearrangeByLabel tables')[i]? = some (some t) := by
    intro t ht i hi
    refine rearrangeFold_get_mem tables' _ ?_ hnodup' t ht i hi
    simpa using hall'2
  apply List.ext_getElem?
  intro i
  by_cases hi : i < tables.length
  · rcases conj2 i hi with ⟨t, ht, hti, hslot⟩
    rw [hslot, conj1' t (hperm.mem_iff.mpr ht) i hti]
  · rw [List.getElem?_eq_none, List.getElem?_eq_none]
    · rw [rearrangeByLabel_length]
      omega
    · rw [rearrangeByLabel_length]
      omega

/-- Witness for `rearrange_by_label_correct`: two tables arriving in
reversed label order. -/
theorem rearrange_by_label_correct_witness :
    ((∀ t ∈ [(⟨⟨0, []⟩, [("label_index", "1")]⟩ : MetaTable),
              ⟨⟨0, []⟩, [("label_index", "0")]⟩],
        ∃ j, labelIndexOf t = some j ∧ j < 2) ∧
     ([(⟨⟨0, []⟩, [("label_index", "1")]⟩ : MetaTable),
       ⟨⟨0, []⟩, [("label_index", "0")]⟩].filterMap labelIndexOf).Nodup) ∧
    (∀ t ∈ [(⟨⟨0, []⟩, [("label_index", "1")]⟩ : MetaTable),
            ⟨⟨0, []⟩, [("label_index", "0")]⟩], ∀ i, labelIndexOf t = some i →
      (rearrangeByLabel [⟨⟨0, []⟩, [("label_index", "1")]⟩,
                         ⟨⟨0, []⟩, [("label_index", "0")]⟩])[i]? = some (some t)) := by
  refine ⟨⟨?_, ?_⟩, ?_⟩
  · decide
  · decide
  · exact (rearrange_by_label_correct _ (by decide) (by decide)).1

/-- Everything a worker receives from the shuffle is owned by it. -/
theorem owner_of_mem_shuffleRecv {ρ : Type} (owner : ρ → Nat)
    (inputs : List (List ρ)) (w : Nat) (r : ρ)
    (h : r ∈ shuffleRecv owner inputs w) : owner r = w := by
  rw [shuffleRecv] at h
  rcases List.mem_flatten.mp h with ⟨l, hl, hrl⟩
  rcases List.mem_map.mp hl with ⟨rows, _, rfl⟩
  simpa using (List.mem_filter.mp hrl).2

/-- Filtering each worker's list and flattening equals filtering the
flattened input. -/
theorem flatten_map_filter {ρ : Type} (q : ρ → Bool) :
    ∀ (inputs : List (List ρ)),
      (inputs.map (fun rows => rows.filter q)).flatten =
        inputs.flatten.filter q := by
  intro inputs
  induction inputs with
  | nil => rfl
  | cons l rest ih =>
    rw [List.map_cons, List.flatten_cons, List.flatten_cons,
      List.filter_append, ih]

/-- Summing an indicator over `range n` picks out the one hit below `n`. -/
theorem sum_range_ite (v : Nat) :
    ∀ (n k : Nat), k < n →
      ((List.range n).map (fun w => if k = w then v else 0)).sum = v := by
  intro n
  induction n with
  | zero =>
    intro k hk
    exact absurd hk (Nat.not_lt_zero k)
  | succ n ih =>
    intro k hk
    rw [List.range_succ, List.map_append, List.sum_append]
    rcases Nat.lt_or_ge k n with hkn | hkn
    · rw [ih k hkn]
      have hne : k ≠ n := Nat.ne_of_lt hkn
      simp [hne]
    · have hkeq : k = n := by omega
      subst hkeq
      have hzero : ((List.range k).map (fun w => if k = w then v else 0)).sum = 0 := by
        apply List.sum_eq_zero
        intro x hx
        rcases List.mem_map.mp hx with ⟨w, hw, rfl⟩
        have hne : k ≠ w := Nat.ne_of_gt (List.mem_range.mp hw)
        rw [if_neg hne]
      rw [hzero]
      simp

/-- The count of one row inside one worker's filtered slice. -/
theorem count_filter_owner {ρ : Type} [DecidableEq ρ] (owner : ρ → Nat)
    (w : Nat) (l : List ρ) (x : ρ) :
    (l.filter (fun r => owner r = w)).count x =
      if owner x = w then l.count x else 0 := by
  by_cases h : owner x = w
  · rw [if_pos h]
    exact List.count_filter (by simp [h])
  · rw [if_neg h]
    rw [List.count_eq_zero]
    intro hx
    exact h (by simpa using (List.mem_filter.mp hx).2)

/-- Partitioning a list by an owner below `n` and regrouping is a
permutation of the list. -/
theorem filter_partition_perm {ρ : Type} [DecidableEq ρ] (owner : ρ → Nat)
    (n : Nat) (l : List ρ) (h : ∀ r ∈ l, owner r < n) :
    (((List.range n).map (fun w => l.filter (fun r => owner r = w))).flatten).Perm
      l := by
  rw [List.perm_iff_count]
  intro x
  rw [List.count_flatten, List.map_map]
  have hmap : (List.range n).map
      (List.count x ∘ fun w => l.filter (fun r => owner r = w)) =
      (List.range n).map (fun w => if owner x = w then l.count x else 0) :=
    List.map_congr_left (fun w _ => count_filter_owner owner w l x)
  rw [hmap]
  by_cases hx : x ∈ l
  · exact sum_range_ite (l.count x) n (owner x) (h x hx)
  · have h0 : l.count x = 0 := List.count_eq_zero.mpr hx
    rw [h0]
    apply List.sum_eq_zero
    intro y hy
    rcases List.mem_map.mp hy with ⟨w, _, rfl⟩
    exact ite_self 0

/-- Claim C1: in the shuffle step every received vertex (edge) row is
owned by the receiving worker — the owner being `GetPartitionId` of the
oid (of the source endpoint for edges) — the streams received across all
workers are a permutation of the streams read across all workers (each
input row appears exactly once, none duplicated or dropped), and for
globally unique input oids the owned vertex-id sets partition the full
input OID set with no duplicates. -/
theorem shuffle_exactly_once (fnum : Nat) (vin : List (List VertexRow))
    (ein : List (List EdgeRow)) (hf : 0 < fnum)
    (hnodup : (vertexOids vin.flatten).Nodup) :
    (∀ w, ∀ r ∈ shuffleVertexTables fnum vin w, vertexOwner fnum r = w) ∧
    (((List.range fnum).map (shuffleVertexTables fnum vin)).flatten).Perm
      vin.flatten ∧
    (∀ w, ∀ e ∈ shuffleEdgeTables fnum ein w, edgeOwner fnum e = w) ∧
    (((List.range fnum).map (shuffleEdgeTables fnum ein)).flatten).Perm
      ein.flatten ∧
    (vertexOids ((List.range fnum).map (shuffleVertexTables fnum vin)).flatten).Nodup ∧
    (∀ x, x ∈ vertexOids ((List.range fnum).map
        (shuffleVertexTables fnum vin)).flatten ↔ x ∈ vertexOids vin.flatten) := by
  have hvowner : ∀ r : VertexRow, vertexOwner fnum r < fnum := by
    intro r
    exact Nat.mod_lt _ hf
  have heowner : ∀ e : EdgeRow, edgeOwner fnum e < fnum := by
    intro e
    exact Nat.mod_lt _ hf
  have hvrw : (List.range fnum).map (shuffleVertexTables fnum vin) =
      (List.range fnum).map
        (fun w => vin.flatten.filter (fun r => vertexOwner fnum r = w)) := by
    apply List.map_congr_left
    intro w _
    rw [shuffleVertexTables, shuffleRecv, flatten_map_filter]
  have herw : (List.range fnum).map (shuffleEdgeTables fnum ein) =
      (List.range fnum).map
        (fun w => ein.flatten.filter (fun e => edgeOwner fnum e = w)) := by
    apply List.map_congr_left
    intro w _
    rw [shuffleEdgeTables, shuffleRecv, flatten_map_filter]
  have hvperm : (((List.range fnum).map (shuffleVertexTables fnum vin)).flatten).Perm
      vin.flatten := by
    rw [hvrw]
    exact filter_partition_perm _ fnum vin.flatten (fun r _ => hvowner r)
  have heperm : (((List.range fnum).map (shuffleEdgeTables fnum ein)).flatten).Perm
      ein.flatten := by
    rw [herw]
    exact filter_partition_perm _ fnum ein.flatten (fun e _ => heowner e)
  have hoidperm : (vertexOids ((List.range fnum).map
      (shuffleVertexTables fnum vin)).flatten).Perm (vertexOids vin.flatten) :=
    hvperm.map VertexRow.oid
  refine ⟨?_, hvperm, ?_, heperm, ?_, ?_⟩
  · intro w r hr
    exact owner_of_mem_shuffleRecv _ vin w r hr
  · intro w e he
    exact owner_of_mem_shuffleRecv _ ein w e he
  · exact hoidperm.nodup_iff.mpr hnodup
  · intro x
    exact hoidperm.mem_iff

/-- Witness for `shuffle_exactly_once`: two workers, two fragments,
vertices `{1,2}` and `{3,4}` read locally, edges `(1,2)` and `(3,4)`. -/
theorem shuffle_exactly_once_witness :
    (0 < 2) ∧
    (vertexOids ([[⟨1, []⟩, ⟨2, []⟩], [⟨3, []⟩, ⟨4, []⟩]] :
        List (List VertexRow)).flatten).Nodup ∧
    ((((List.range 2).map (shuffleVertexTables 2
        [[⟨1, []⟩, ⟨2, []⟩], [⟨3, []⟩, ⟨4, []⟩]])).flatten).Perm
      ([[⟨1, []⟩, ⟨2, []⟩], [⟨3, []⟩, ⟨4, []⟩]] :
        List (List VertexRow)).flatten) ∧
    ((((List.range 2).map (shuffleEdgeTables 2
        [[⟨1, 2, []⟩], [⟨3, 4, []⟩]])).flatten).Perm
      ([[⟨1, 2, []⟩], [⟨3, 4, []⟩]] : List (List EdgeRow)).flatten) :=
  ⟨by decide, by decide,
    (shuffle_exactly_once 2 [[⟨1, []⟩, ⟨2, []⟩], [⟨3, []⟩, ⟨4, []⟩]]
      [[⟨1, 2, []⟩], [⟨3, 4, []⟩]] (by decide) (by decide)).2.1,
    (shuffle_exactly_once 2 [[⟨1, []⟩, ⟨2, []⟩], [⟨3, []⟩, ⟨4, []⟩]]
      [[⟨1, 2, []⟩], [⟨3, 4, []⟩]] (by decide) (by decide)).2.2.2.1⟩

/-- An everywhere-defined `filterMap` is the `map` of the forced values. -/
theorem filterMap_eq_map_getD {α β : Type} [Inhabited β] :
    ∀ (l : List α) (f : α → Option β), (∀ a ∈ l, (f a).isSome) →
      l.filterMap f = l.map (fun a => (f a).getD default) := by
  intro l
  induction l with
  | nil => intro f _; rfl
  | cons a rest ih =>
    intro f h
    rcases Option.isSome_iff_exists.mp (h a (List.mem_cons_self _ _)) with ⟨b, hb⟩
    rw [List.filterMap_cons, hb, List.map_cons, hb]
    rw [ih f (fun x hx => h x (List.mem_cons_of_mem _ hx))]
    rfl

/-- With all non-null schemas equal, `field_num` is that schema's field
count. -/
theorem firstFieldNum_uniform (s : Schema) :
    ∀ (schemas : List (Option Schema)), some s ∈ schemas →
      (∀ o ∈ schemas, o = none ∨ o = some s) →
      firstFieldNum schemas = s.length := by
  intro schemas
  induction schemas with
  | nil =>
    intro hmem _
    exact absurd hmem (List.not_mem_nil _)
  | cons o rest ih =>
    intro hmem huni
    rcases huni o (List.mem_cons_self _ _) with rfl | rfl
    · have hmem' : some s ∈ rest := by
        rcases List.mem_cons.mp hmem with h | h
        · exact absurd h (by simp)
        · exact h
      rw [firstFieldNum]
      exact ih hmem' (fun x hx => huni x (List.mem_cons_of_mem _ hx))
    · rfl

/-- With all non-null schemas equal, the fields contributed at an
in-range position are that schema's field, repeated once per non-null
schema. -/
theorem contributedAt_uniform (s : Schema) (i : Nat) (hi : i < s.length) :
    ∀ (schemas : List (Option Schema)),
      (∀ o ∈ schemas, o = none ∨ o = some s) →
      contributedAt schemas i =
        List.replicate (schemas.filterMap id).length s[i] := by
  intro schemas
  induction schemas with
  | nil => intro _; rfl
  | cons o rest ih =>
    intro huni
    have hrest := ih (fun x hx => huni x (List.mem_cons_of_mem _ hx))
    rcases huni o (List.mem_cons_self _ _) with rfl | rfl
    · rw [contributedAt] at hrest ⊢
      simp only [List.filterMap_cons, Option.none_bind, id_eq]
      exact hrest
    · rw [contributedAt] at hrest ⊢
      have hgi : s[i]? = some s[i] := List.getElem?_eq_getElem hi
      simp only [List.filterMap_cons, Option.some_bind, hgi, id_eq]
      rw [List.length_cons, List.replicate_succ]
      rw [hrest]

/-- Inserting an element into a run of itself extends the run. -/
theorem orderedInsert_replicate_self (f : Field) :
    ∀ (k : Nat), List.orderedInsert fieldLe f (List.replicate k f) =
      List.replicate (k + 1) f := by
  intro k
  induction k with
  | zero => rfl
  | succ k _ =>
    rw [List.replicate_succ, List.orderedInsert]
    rw [if_pos (show fieldLe f f from le_refl f.type)]
    rw [← List.replicate_succ, ← List.replicate_succ]

/-- Sorting a constant list is the identity. -/
theorem insertionSort_replicate_self (f : Field) :
    ∀ (k : Nat), List.insertionSort fieldLe (List.replicate k f) =
      List.replicate k f := by
  intro k
  induction k with
  | zero => rfl
  | succ k ih =>
    rw [List.replicate_succ, List.insertionSort, ih,
      orderedInsert_replicate_self]
    rw [List.replicate_succ]

/-- The run scan over a constant list returns its element. -/
theorem scanRuns_replicate_self (f : Field) :
    ∀ (m c : Nat), scanRuns f 1 c f (List.replicate m f) = f := by
  intro m
  induction m with
  | zero =>
    intro c
    rw [List.replicate]
    rw [scanRuns]
    exact ite_self f
  | succ m ih =>
    intro c
    rw [List.replicate_succ, scanRuns, if_pos rfl]
    exact ih (c + 1)

/-- With all non-null schemas equal, every in-range position's modal
field is that schema's field. -/
theorem mostCommonFieldAt_uniform (s : Schema)
    (schemas : List (Option Schema)) (hmem : some s ∈ schemas)
    (huni : ∀ o ∈ schemas, o = none ∨ o = some s) (i : Nat)
    (hi : i < s.length) : mostCommonFieldAt schemas i = some s[i] := by
  have hk : s ∈ schemas.filterMap id := List.mem_filterMap.mpr ⟨some s, hmem, rfl⟩
  have hkpos : 0 < (schemas.filterMap id).length := List.length_pos.mpr
    (List.ne_nil_of_mem hk)
  rcases Nat.exists_eq_succ_of_ne_zero (Nat.pos_iff_ne_zero.mp hkpos) with ⟨m, hm⟩
  rw [mostCommonFieldAt, contributedAt_uniform s i hi schemas huni,
    insertionSort_replicate_self, hm, List.replicate_succ]
  show some (scanRuns s[i] 1 1 s[i] (List.replicate m s[i])) = some s[i]
  rw [scanRuns_replicate_self]

/-- Claim C8: schema reconciliation is idempotent on uniform input — when
all non-null schemas handed to `FindMostCommonSchema` are identical, it
returns that schema, same fields in the same order with the same types. -/
theorem findMostCommonSchema_uniform (schemas : List (Option Schema))
    (s : Schema) (hmem : some s ∈ schemas)
    (huni : ∀ o ∈ schemas, o = none ∨ o = some s) :
    findMostCommonSchema schemas = s := by
  have hn : firstFieldNum schemas = s.length :=
    firstFieldNum_uniform s schemas hmem huni
  have hsome : ∀ i ∈ List.range (firstFieldNum schemas),
      (mostCommonFieldAt schemas i).isSome := by
    intro i hi
    have hilt : i < s.length := by
      rw [← hn]
      exact List.mem_range.mp hi
    rw [mostCommonFieldAt_uniform s schemas hmem huni i hilt]
    rfl
  rw [findMostCommonSchema, filterMap_eq_map_getD _ _ hsome]
  apply List.ext_getElem
  · rw [List.length_map, List.length_range, hn]
  · intro i h₁ h₂
    rw [List.length_map, List.length_range] at h₁
    have hilt : i < s.length := by
      rw [← hn]
      exact h₁
    rw [List.getElem_map, List.getElem_range,
      mostCommonFieldAt_uniform s schemas hmem huni i hilt]
    rfl

/-- Witness for `findMostCommonSchema_uniform`: three workers, one with a
null schema, two sharing one schema. -/
theorem findMostCommonSchema_uniform_witness :
    (some [(⟨"id", "int64"⟩ : Field), ⟨"w", "double"⟩] ∈
      [some [(⟨"id", "int64"⟩ : Field), ⟨"w", "double"⟩], none,
       some [(⟨"id", "int64"⟩ : Field), ⟨"w", "double"⟩]]) ∧
    findMostCommonSchema
      [some [(⟨"id", "int64"⟩ : Field), ⟨"w", "double"⟩], none,
       some [(⟨"id", "int64"⟩ : Field), ⟨"w", "double"⟩]] =
      [(⟨"id", "int64"⟩ : Field), ⟨"w", "double"⟩] :=
  ⟨by decide, findMostCommonSchema_uniform _ _ (by decide) (by decide)⟩

/-- A run of a foreign element counts nothing. -/
theorem count_replicate_ne {α : Type} [LinearOrder α] {a b : α} (h : b ≠ a)
    (n : Nat) : (List.replicate n b).count a = 0 := by
  rw [List.count_replicate]
  simp [h]

/-- The run scan, entered with closed part `C`, a current run of `currC`
copies of `prev`, and a best-so-far `res`/`maxC` satisfying `scanInv`,
returns a first modal key of the whole sorted list. -/
theorem tscan_spec {α : Type} [LinearOrder α] :
    ∀ (rest C : List α) (prev res : α) (maxC currC : Nat),
      List.Sorted (· ≤ ·) (C ++ List.replicate currC prev ++ rest) →
      1 ≤ currC →
      (∀ t ∈ C, t < prev) →
      scanInv C prev res maxC →
      firstModalKey (C ++ List.replicate currC prev ++ rest)
        (tscan prev maxC currC res rest) := by
  intro rest
  induction rest with
  | nil =>
    intro C prev res maxC currC hsort hc hC hinv
    have hprevC : prev ∉ C := fun h => absurd (hC prev h) (lt_irrefl prev)
    have hcount_prev : (C ++ List.replicate currC prev).count prev = currC := by
      rw [List.count_append, List.count_eq_zero.mpr hprevC,
        List.count_replicate_self, Nat.zero_add]
    have hcount_C : ∀ t ∈ C,
        (C ++ List.replicate currC prev).count t = C.count t := by
      intro t ht
      rw [List.count_append, count_replicate_ne (ne_of_gt (hC t ht)),
        Nat.add_zero]
    have hmemL : ∀ t, t ∈ C ++ List.replicate currC prev →
        t ∈ C ∨ t = prev := by
      intro t ht
      rcases List.mem_append.mp ht with h | h
      · exact Or.inl h
      · exact Or.inr (List.mem_replicate.mp h).2
    rw [List.append_nil]
    by_cases hm : maxC < currC
    · rw [tscan, if_pos hm]
      refine ⟨List.mem_append_right _
        (List.mem_replicate.mpr ⟨by omega, rfl⟩), ?_, ?_⟩
      · intro t ht
        rcases hmemL t ht with htC | rfl
        · rw [hcount_C t htC, hcount_prev]
          rcases hinv with ⟨hCnil, _, _⟩ | ⟨_, _, hbound, _⟩
          · rw [hCnil] at htC
            exact absurd htC (List.not_mem_nil t)
          · have := hbound t htC
            omega
        · exact le_refl _
      · intro t ht hcnt
        rcases hmemL t ht with htC | rfl
        · rw [hcount_C t htC, hcount_prev] at hcnt
          rcases hinv with ⟨hCnil, _, _⟩ | ⟨_, _, hbound, _⟩
          · rw [hCnil] at htC
            exact absurd htC (List.not_mem_nil t)
          · have := hbound t htC
            omega
        · exact le_refl _
    · rw [tscan, if_neg hm]
      rcases hinv with ⟨hCnil, hmax1, hres⟩ | ⟨hresC, hrescnt, hbound, htie⟩
      · subst hCnil
        subst hres
        have hc1 : currC = 1 := by omega
        subst hc1
        refine ⟨List.mem_append_right _
          (List.mem_replicate.mpr ⟨by omega, rfl⟩), ?_, ?_⟩
        · intro t ht
          rcases hmemL t ht with htC | rfl
          · exact absurd htC (List.not_mem_nil t)
          · exact le_refl _
        · intro t ht _
          rcases hmemL t ht with htC | rfl
          · exact absurd htC (List.not_mem_nil t)
          · exact le_refl _
      · have hresprev : res < prev := hC res hresC
        refine ⟨List.mem_append_left _ hresC, ?_, ?_⟩
        · intro t ht
          rw [hcount_C res hresC, hrescnt]
          rcases hmemL t ht with htC | rfl
          · rw [hcount_C t htC]
            exact hbound t htC
          · rw [hcount_prev]
            omega
        · intro t ht hcnt
          rw [hcount_C res hresC, hrescnt] at hcnt
          rcases hmemL t ht with htC | rfl
          · rw [hcount_C t htC] at hcnt
            exact htie t htC hcnt
          · exact le_of_lt hresprev
  | cons f rest ihr =>
    intro C prev res maxC currC hsort hc hC hinv
    have hprevmem : prev ∈ C ++ List.replicate currC prev :=
      List.mem_append_right _ (List.mem_replicate.mpr ⟨by omega, rfl⟩)
    have hpf : prev ≤ f :=
      (List.pairwise_append.mp hsort).2.2 prev hprevmem f (List.mem_cons_self _ _)
    by_cases hfp : f = prev
    · subst hfp
      rw [tscan, if_pos rfl]
      have hlist : C ++ List.replicate currC f ++ f :: rest =
          C ++ List.replicate (currC + 1) f ++ rest := by
        rw [List.replicate_succ']
        simp [List.append_assoc]
      rw [hlist] at hsort ⊢
      exact ihr C f res maxC (currC + 1) hsort (by omega) hC hinv
    · have hplt : prev < f := lt_of_le_of_ne hpf (fun he => hfp he.symm)
      have hprevC : prev ∉ C := fun h => absurd (hC prev h) (lt_irrefl prev)
      have hcount_prev : (C ++ List.replicate currC prev).count prev = currC := by
        rw [List.count_append, List.count_eq_zero.mpr hprevC,
          List.count_replicate_self, Nat.zero_add]
      have hcount_C : ∀ t ∈ C,
          (C ++ List.replicate currC prev).count t = C.count t := by
        intro t ht
        rw [List.count_append, count_replicate_ne (ne_of_gt (hC t ht)),
          Nat.add_zero]
      have hmemC' : ∀ t, t ∈ C ++ List.replicate currC prev →
          t ∈ C ∨ t = prev := by
        intro t ht
        rcases List.mem_append.mp ht with h | h
        · exact Or.inl h
        · exact Or.inr (List.mem_replicate.mp h).2
      have hC' : ∀ t ∈ C ++ List.replicate currC prev, t < f := by
        intro t ht
        rcases hmemC' t ht with htC | rfl
        · exact lt_trans (hC t htC) hplt
        · exact hplt
      have hlist : C ++ List.replicate currC prev ++ f :: rest =
          (C ++ List.replicate currC prev) ++ List.replicate 1 f ++ rest := by
        simp
      rw [hlist] at hsort ⊢
      rw [tscan, if_neg hfp]
      by_cases hm : maxC < currC
      · rw [if_pos hm]
        refine ihr _ f prev currC 1 hsort (le_refl 1) hC' (Or.inr
          ⟨hprevmem, hcount_prev, ?_, ?_⟩)
        · intro t ht
          rcases hmemC' t ht with htC | rfl
          · rw [hcount_C t htC]
            rcases hinv with ⟨hCnil, _, _⟩ | ⟨_, _, hbound, _⟩
            · rw [hCnil] at htC
              exact absurd htC (List.not_mem_nil t)
            · have := hbound t htC
              omega
          · rw [hcount_prev]
        · intro t ht hcnt
          rcases hmemC' t ht with htC | rfl
          · rw [hcount_C t htC] at hcnt
            rcases hinv with ⟨hCnil, _, _⟩ | ⟨_, _, hbound, _⟩
            · rw [hCnil] at htC
              exact absurd htC (List.not_mem_nil t)
            · have := hbound t htC
              omega
          · exact le_refl _
      · rw [if_neg hm]
        refine ihr _ f res maxC 1 hsort (le_refl 1) hC' (Or.inr ?_)
        rcases hinv with ⟨hCnil, hmax1, hres⟩ | ⟨hresC, hrescnt, hbound, htie⟩
        · subst hCnil
          subst hres
          have hc1 : currC = 1 := by omega
          subst hc1
          subst hmax1
          refine ⟨hprevmem, hcount_prev, ?_, ?_⟩
          · intro t ht
            rcases hmemC' t ht with htC | rfl
            · exact absurd htC (List.not_mem_nil t)
            · rw [hcount_prev]
          · intro t ht _
            rcases hmemC' t ht with htC | rfl
            · exact absurd htC (List.not_mem_nil t)
            · exact le_refl _
        · refine ⟨List.mem_append_left _ hresC, ?_, ?_, ?_⟩
          · rw [hcount_C res hresC]
            exact hrescnt
          · intro t ht
            rcases hmemC' t ht with htC | rfl
            · rw [hcount_C t htC]
              exact hbound t htC
            · rw [hcount_prev]
              omega
          · intro t ht hcnt
            rcases hmemC' t ht with htC | rfl
            · rw [hcount_C t htC] at hcnt
              exact htie t htC hcnt
            · exact le_of_lt (hC res hresC)

/-- The field scan projects onto the key scan over the type strings. -/
theorem scanRuns_type :
    ∀ (l : List Field) (prev res : Field) (maxC currC : Nat),
      (scanRuns prev maxC currC res l).type =
        tscan prev.type maxC currC res.type (l.map Field.type) := by
  intro l
  induction l with
  | nil =>
    intro prev res maxC currC
    rw [List.map_nil, scanRuns, tscan]
    by_cases h : maxC < currC
    · rw [if_pos h, if_pos h]
    · rw [if_neg h, if_neg h]
  | cons f rest ih =>
    intro prev res maxC currC
    rw [List.map_cons, scanRuns, tscan]
    by_cases h1 : f.type = prev.type
    · rw [if_pos h1, if_pos h1, ih, h1]
    · rw [if_neg h1, if_neg h1]
      by_cases h2 : maxC < currC
      · rw [if_pos h2, if_pos h2, ih]
      · rw [if_neg h2, if_neg h2, ih]

/-- Being a first modal key transfers along permutations. -/
theorem firstModalKey_of_perm {α : Type} [LinearOrder α] {l₁ l₂ : List α}
    (h : l₁.Perm l₂) {r : α} (hm : firstModalKey l₁ r) :
    firstModalKey l₂ r := by
  obtain ⟨hmem, hbound, htie⟩ := hm
  refine ⟨h.mem_iff.mp hmem, ?_, ?_⟩
  · intro t ht
    rw [← h.count_eq t, ← h.count_eq r]
    exact hbound t (h.mem_iff.mpr ht)
  · intro t ht hcnt
    rw [← h.count_eq t, ← h.count_eq r] at hcnt
    exact htie t (h.mem_iff.mpr ht) hcnt

/-- Below `field_num` every position receives at least one field. -/
theorem contributedAt_ne_nil :
    ∀ (schemas : List (Option Schema)) (i : Nat),
      i < firstFieldNum schemas → contributedAt schemas i ≠ [] := by
  intro schemas
  induction schemas with
  | nil =>
    intro i hi
    exact absurd hi (by simp [firstFieldNum])
  | cons o rest ih =>
    intro i hi
    rcases o with _ | s
    · rw [firstFieldNum] at hi
      simp only [contributedAt, List.filterMap_cons, Option.none_bind]
      exact ih i hi
    · rw [firstFieldNum] at hi
      have hgi : s[i]? = some s[i] := List.getElem?_eq_getElem hi
      simp only [contributedAt, List.filterMap_cons, Option.some_bind, hgi]
      exact List.cons_ne_nil _ _

/-- `mostCommonFieldAt` returns a field whose type is first modal among
the contributed fields. -/
theorem mostCommonFieldAt_spec (schemas : List (Option Schema)) (i : Nat)
    (hne : contributedAt schemas i ≠ []) :
    ∃ r, mostCommonFieldAt schemas i = some r ∧
      typeFirstModal (contributedAt schemas i) r := by
  have hperm : (List.insertionSort fieldLe (contributedAt schemas i)).Perm
      (contributedAt schemas i) := List.perm_insertionSort fieldLe _
  obtain ⟨x, rest, hxr⟩ : ∃ x rest,
      List.insertionSort fieldLe (contributedAt schemas i) = x :: rest := by
    rcases hs : List.insertionSort fieldLe (contributedAt schemas i)
      with _ | ⟨x, rest⟩
    · rw [hs] at hperm
      exact absurd (List.Perm.eq_nil hperm.symm) hne
    · exact ⟨x, rest, rfl⟩
  rw [hxr] at hperm
  have hsorted : List.Sorted fieldLe (x :: rest) := by
    rw [← hxr]
    exact List.sorted_insertionSort fieldLe _
  have hstr : List.Sorted (· ≤ ·) ((x :: rest).map Field.type) :=
    List.Pairwise.map Field.type (fun a b h => h) hsorted
  have hspec := tscan_spec (rest.map Field.type) [] x.type x.type 1 1
    (by simpa using hstr) (le_refl 1)
    (by intro t ht; exact absurd ht (List.not_mem_nil t))
    (Or.inl ⟨rfl, rfl, rfl⟩)
  have hL : ([] : List String) ++ List.replicate 1 x.type ++
      rest.map Field.type = (x :: rest).map Field.type := by simp
  rw [hL] at hspec
  refine ⟨scanRuns x 1 1 x rest, ?_, ?_⟩
  · rw [mostCommonFieldAt, hxr]
  · rw [typeFirstModal, scanRuns_type]
    exact firstModalKey_of_perm (hperm.map Field.type) hspec

/-- Claim C3: `FindMostCommonSchema` emits one field per position of the
first non-null schema, and at every position the emitted field's type is
the modal type of the fields contributed there (null schemas skipped),
computed by the sort-then-run-count scan, with equal-frequency ties
resolved to the type first encountered in sorted (canonical-string)
order — the least such type string. -/
theorem findMostCommonSchema_modal (schemas : List (Option Schema))
    (i : Nat) (hi : i < firstFieldNum schemas) :
    (findMostCommonSchema schemas).length = firstFieldNum schemas ∧
    ∃ r, (findMostCommonSchema schemas)[i]? = some r ∧
      typeFirstModal (contributedAt schemas i) r := by
  have hsome : ∀ j ∈ List.range (firstFieldNum schemas),
      (mostCommonFieldAt schemas j).isSome := by
    intro j hj
    rcases mostCommonFieldAt_spec schemas j
      (contributedAt_ne_nil schemas j (List.mem_range.mp hj)) with ⟨r, hr, _⟩
    rw [hr]
    rfl
  have heq : findMostCommonSchema schemas =
      (List.range (firstFieldNum schemas)).map
        (fun j => (mostCommonFieldAt schemas j).getD default) := by
    rw [findMostCommonSchema]
    exact filterMap_eq_map_getD _ _ hsome
  constructor
  · rw [heq, List.length_map, List.length_range]
  · rcases mostCommonFieldAt_spec schemas i
      (contributedAt_ne_nil schemas i hi) with ⟨r, hr, hmodal⟩
    refine ⟨r, ?_, hmodal⟩
    rw [heq, List.getElem?_map, List.getElem?_range hi]
    simp [hr]

/-- Witness for `findMostCommonSchema_modal`: three workers disagreeing
at position 0 (`int64` twice, `utf8` once). -/
theorem findMostCommonSchema_modal_witness :
    (0 < firstFieldNum [some [(⟨"a", "int64"⟩ : Field)],
        some [(⟨"a", "utf8"⟩ : Field)], some [(⟨"b", "int64"⟩ : Field)]]) ∧
    ((findMostCommonSchema [some [(⟨"a", "int64"⟩ : Field)],
        some [(⟨"a", "utf8"⟩ : Field)],
        some [(⟨"b", "int64"⟩ : Field)]]).length =
      firstFieldNum [some [(⟨"a", "int64"⟩ : Field)],
        some [(⟨"a", "utf8"⟩ : Field)], some [(⟨"b", "int64"⟩ : Field)]] ∧
     ∃ r, (findMostCommonSchema [some [(⟨"a", "int64"⟩ : Field)],
        some [(⟨"a", "utf8"⟩ : Field)],
        some [(⟨"b", "int64"⟩ : Field)]])[0]? = some r ∧
      typeFirstModal (contributedAt [some [(⟨"a", "int64"⟩ : Field)],
        some [(⟨"a", "utf8"⟩ : Field)],
        some [(⟨"b", "int64"⟩ : Field)]] 0) r) :=
  ⟨by decide, findMostCommonSchema_modal _ 0 (by decide)⟩

end Vineyard
